import Mathlib

/-!
Verification of the clip-selection engine of the `shorts` repository
(`backend/audio_analyzer.py`, `backend/app.py`).

The engine is embedded shallowly over ℚ: the librosa feature extraction is
external input (feature sequences, beat timestamps, track duration are
parameters), and every arithmetic step of `analyze_audio`, `adjust_clip` and
`get_audio_waveform` that the spec talks about is reproduced exactly,
including the `1e-8` epsilon guard, Python `int()` truncation and the
strict comparisons of the search loop.
-/

/-- Result record of the analysis (`ClipResult` dataclass, audio_analyzer.py). -/
structure ClipResult where
  start_time : ℚ
  end_time : ℚ
  duration : ℚ
  score : ℚ
  reason : String
  deriving Repr, DecidableEq

/-- The epsilon guard `1e-8` added to every normalization denominator. -/
def eps : ℚ := 1 / 100000000

/-- `frame_duration = hop_length / sr = 512 / 22050` (audio_analyzer.py lines 72-73). -/
def frame_duration : ℚ := 512 / 22050

/-- `np.min` over a list; 0 on the empty list (numpy raises there, callers guard). -/
def listMin : List ℚ → ℚ
  | [] => 0
  | x :: xs => xs.foldl min x

/-- `np.max` over a list; 0 on the empty list. -/
def listMax : List ℚ → ℚ
  | [] => 0
  | x :: xs => xs.foldl max x

/-- Min-max normalization of one value against a sequence:
`(x - np.min(l)) / (np.max(l) - np.min(l) + 1e-8)`. -/
def normalizeVal (l : List ℚ) (x : ℚ) : ℚ :=
  (x - listMin l) / (listMax l - listMin l + eps)

/-- `(arr - np.min(arr)) / (np.max(arr) - np.min(arr) + 1e-8)`
(audio_analyzer.py lines 77-80 and 184). -/
def minmaxNorm (l : List ℚ) : List ℚ := l.map (normalizeVal l)

theorem foldl_min_le_init (as : List ℚ) (a : ℚ) : as.foldl min a ≤ a := by
  induction as generalizing a with
  | nil => simp
  | cons x xs ih => exact le_trans (ih (min a x)) (min_le_left a x)

theorem foldl_min_le_mem (as : List ℚ) (a x : ℚ) (hx : x ∈ as) : as.foldl min a ≤ x := by
  induction as generalizing a with
  | nil => cases hx
  | cons y ys ih =>
    rcases List.mem_cons.mp hx with h | h
    · subst h
      exact le_trans (foldl_min_le_init ys (min a x)) (min_le_right a x)
    · exact ih (min a y) h

theorem init_le_foldl_max (as : List ℚ) (a : ℚ) : a ≤ as.foldl max a := by
  induction as generalizing a with
  | nil => simp
  | cons x xs ih => exact le_trans (le_max_left a x) (ih (max a x))

theorem mem_le_foldl_max (as : List ℚ) (a x : ℚ) (hx : x ∈ as) : x ≤ as.foldl max a := by
  induction as generalizing a with
  | nil => cases hx
  | cons y ys ih =>
    rcases List.mem_cons.mp hx with h | h
    · subst h
      exact le_trans (le_max_right a x) (init_le_foldl_max ys (max a x))
    · exact ih (max a y) h

theorem listMin_le (l : List ℚ) (x : ℚ) (hx : x ∈ l) : listMin l ≤ x := by
  cases l with
  | nil => cases hx
  | cons a as =>
    rcases List.mem_cons.mp hx with h | h
    · subst h; exact foldl_min_le_init as x
    · exact foldl_min_le_mem as a x h

theorem le_listMax (l : List ℚ) (x : ℚ) (hx : x ∈ l) : x ≤ listMax l := by
  cases l with
  | nil => cases hx
  | cons a as =>
    rcases List.mem_cons.mp hx with h | h
    · subst h; exact init_le_foldl_max as x
    · exact mem_le_foldl_max as a x h

theorem eps_pos : 0 < eps := by norm_num [eps]

/-- The normalization denominator is positive as soon as the sequence has a member. -/
theorem normalize_denom_pos (l : List ℚ) (x : ℚ) (hx : x ∈ l) :
    0 < listMax l - listMin l + eps := by
  have h1 : listMin l ≤ x := listMin_le l x hx
  have h2 : x ≤ listMax l := le_listMax l x hx
  have := eps_pos
  linarith

/-- Claim C7 (amended part): epsilon-guarded min-max normalization keeps every
value of a nonempty sequence in `[0, 1)`, sends the minimum to exactly `0`, and
sends the maximum to `(max - min) / (max - min + ε)` — strictly below 1, not
exactly 1. -/
theorem C7_normalize_amended (l : List ℚ) :
    (∀ v ∈ minmaxNorm l, 0 ≤ v ∧ v < 1) ∧
    normalizeVal l (listMin l) = 0 ∧
    normalizeVal l (listMax l) = (listMax l - listMin l) / (listMax l - listMin l + eps) ∧
    (listMin l ≤ listMax l → normalizeVal l (listMax l) < 1) := by
  refine ⟨?_, ?_, rfl, ?_⟩
  · intro v hv
    rcases List.mem_map.mp hv with ⟨x, hx, hvx⟩
    have hd : 0 < listMax l - listMin l + eps := normalize_denom_pos l x hx
    have h1 : listMin l ≤ x := listMin_le l x hx
    have h2 : x ≤ listMax l := le_listMax l x hx
    subst hvx
    constructor
    · exact div_nonneg (by linarith) (le_of_lt hd)
    · rw [normalizeVal, div_lt_one hd]
      have := eps_pos
      linarith
  · simp [normalizeVal]
  · intro hle
    have hd : 0 < listMax l - listMin l + eps := by
      have := eps_pos; linarith
    rw [normalizeVal, div_lt_one hd]
    have := eps_pos
    linarith

/-- Witness for C7: on the concrete sequence `[0, 1]` the normalized values are
within `[0, 1)` as the theorem asserts. -/
theorem C7_normalize_amended_witness :
    (0 ≤ normalizeVal [(0 : ℚ), 1] 1 ∧ normalizeVal [(0 : ℚ), 1] 1 < 1) ∧
    normalizeVal [(0 : ℚ), 1] (listMin [(0 : ℚ), 1]) = 0 := by
  have h := C7_normalize_amended [(0 : ℚ), 1]
  refine ⟨h.1 (normalizeVal [(0 : ℚ), 1] 1) ?_, h.2.1⟩
  simp [minmaxNorm]

/-- Counterexample for C7 as stated: the sequence `[0, 1]` has range `1 > ε`,
yet its maximum is mapped to `10^8 / (10^8 + 1)`, which is not exactly 1. -/
theorem C7_counterexample :
    eps < listMax [(0 : ℚ), 1] - listMin [(0 : ℚ), 1] ∧
    normalizeVal [(0 : ℚ), 1] (listMax [(0 : ℚ), 1]) ≠ 1 := by
  norm_num [eps, listMax, listMin, normalizeVal]

/-- Elementwise `0.4*e + 0.3*o + 0.2*c + 0.1*b` (audio_analyzer.py lines 84-89). -/
def combine4 (e o c b : List ℚ) : List ℚ :=
  List.zipWith (· + ·)
    (List.zipWith (· + ·) (e.map (fun v => 4/10 * v)) (o.map (fun v => 3/10 * v)))
    (List.zipWith (· + ·) (c.map (fun v => 2/10 * v)) (b.map (fun v => 1/10 * v)))

/-- The Score Combiner exactly as coded (lines 77-89): normalize each FULL
sequence first, then truncate onset/contrast/brightness to the energy
sequence's length (`onset_norm[:len(rms_norm)]` …), then combine. -/
def score_combiner (rms onset contrast centroid : List ℚ) : List ℚ :=
  let r := minmaxNorm rms
  combine4 r ((minmaxNorm onset).take r.length) ((minmaxNorm contrast).take r.length)
    ((minmaxNorm centroid).take r.length)

/-- The Score Combiner as the spec's sentence orders it: FIRST truncate all
four sequences to the shortest common length, THEN min-max normalize each
(over the truncated sequence), then combine. -/
def score_combiner_spec (rms onset contrast centroid : List ℚ) : List ℚ :=
  let n := min (min rms.length onset.length) (min contrast.length centroid.length)
  combine4 (minmaxNorm (rms.take n)) (minmaxNorm (onset.take n))
    (minmaxNorm (contrast.take n)) (minmaxNorm (centroid.take n))

/-- `np.mean(l[a:b])`; 0 on an empty slice (numpy yields NaN there — the
engine only ever averages nonempty slices). -/
def sliceMean (l : List ℚ) (a b : ℕ) : ℚ :=
  let s := (l.drop a).take (b - a)
  s.sum / s.length

/-- Python `range(0, stop, step)` for a positive `step`. -/
def pyRange (stop : ℤ) (step : ℕ) : List ℕ :=
  if stop ≤ 0 ∨ step = 0 then []
  else (List.range ((stop.toNat + step - 1) / step)).map (fun k => k * step)

/-- `int(target_duration / frame_duration)` (line 93) — Python `int()`
truncates toward zero; both operands are positive wherever this is used, so it
is the floor. -/
def window_frames (target : ℚ) : ℕ := (⌊target / frame_duration⌋).toNat

/-- What the spec claims for the window size: `round(target / frame_duration)`. -/
def window_frames_spec (target : ℚ) : ℕ := (round (target / frame_duration)).toNat

/-- `int(0.5 / frame_duration)` (line 99) — the candidate step in frames. -/
def step_frames : ℕ := (⌊(1/2 : ℚ) / frame_duration⌋).toNat

/-- What the spec claims for the step: `round(0.5 / frame_duration)`. -/
def step_frames_spec : ℕ := (round ((1/2 : ℚ) / frame_duration)).toNat

/-- `np.min(np.abs(beat_times - t))` — distance from `t` to the nearest beat. -/
def minBeatDist (beats : List ℚ) (t : ℚ) : ℚ := listMin (beats.map (fun b => |b - t|))

/-- The loop body of the window search (lines 100-113): mean of the window,
beat-proximity bonus when the beat list is nonempty, then the 0.8 edge
penalty on the first 10% / last 15% of the track. -/
def adjScore (scores beats : List ℚ) (duration : ℚ) (w start : ℕ) : ℚ :=
  let ws := sliceMean scores start (start + w)
  let st : ℚ := (start : ℚ) * frame_duration
  let ws := if beats ≠ [] then ws + 1/10 * (1 - min (minBeatDist beats st / (1/2)) 1) else ws
  let pos := st / duration
  if pos < 1/10 ∨ 85/100 < pos then ws * (8/10) else ws

/-- The running-best fold of the search loop, started at `(-1, 0)` and updated
only on a strictly greater score (lines 95-117). -/
def bestWindow (cands : List (ℕ × ℚ)) : ℚ × ℕ :=
  cands.foldl (fun best p => if best.1 < p.2 then (p.2, p.1) else best) (-1, 0)

/-- The `(start_frame, adjusted score)` pairs the search loop ranges over:
`range(0, len(combined_score) - window_frames, int(0.5 / frame_duration))`. -/
def windowCandidates (scores beats : List ℚ) (duration target : ℚ) : List (ℕ × ℚ) :=
  (pyRange ((scores.length : ℤ) - (window_frames target : ℤ)) step_frames).map
    (fun f => (f, adjScore scores beats duration (window_frames target) f))

/-- `np.argmin` — index of the first occurrence of the minimum. Accumulator:
remaining list, index of the next element, best value, best index. -/
def argminAux : List ℚ → ℕ → ℚ → ℕ → ℕ
  | [], _, _, bi => bi
  | x :: xs, i, bv, bi =>
    if x < bv then argminAux xs (i + 1) x i else argminAux xs (i + 1) bv bi

/-- `np.argmin` over a list (0 on the empty list, where numpy raises). -/
def argminL : List ℚ → ℕ
  | [] => 0
  | x :: xs => argminAux xs 1 x 0

/-- Beat snap (lines 122-127): when the list of beats is nonempty and the
nearest beat is strictly within 0.3s, move the start exactly onto it. -/
def snapStart (beats : List ℚ) (st : ℚ) : ℚ :=
  if beats = [] then st
  else
    let ds := beats.map (fun b => |b - st|)
    let i := argminL ds
    if ds.getD i 0 < 3/10 then beats.getD i 0 else st

/-- End clamp and short-window correction (lines 129-136): returns the final
`(start_time, end_time)` pair. -/
def refineTimes (st target duration min_duration : ℚ) : ℚ × ℚ :=
  let e := min (st + target) duration
  if e - st < min_duration ∧ 0 < st then (max 0 (e - target), e) else (st, e)

/-- Round-half-to-even of a rational (Python `round` semantics on the exact
value, setting aside binary floating-point representation error). -/
def halfEven (q : ℚ) : ℤ :=
  if q - ⌊q⌋ < 1/2 then ⌊q⌋
  else if 1/2 < q - ⌊q⌋ then ⌊q⌋ + 1
  else if 2 ∣ ⌊q⌋ then ⌊q⌋ else ⌊q⌋ + 1

/-- Python `round(x, nd)`. -/
def pyRound (x : ℚ) (nd : ℕ) : ℚ := (halfEven (x * 10 ^ nd) : ℚ) / 10 ^ nd

/-- `analyze_audio` (audio_analyzer.py lines 21-158), with the librosa feature
extraction abstracted into inputs: `duration` is the track duration, `rms`,
`centroid`, `onset`, `contrast` the raw per-frame feature sequences (contrast
already averaged over bands), `beat_times` the detected beat timestamps. -/
def analyze_audio (duration : ℚ) (rms centroid onset contrast beat_times : List ℚ)
    (min_duration max_duration : ℚ) : ClipResult :=
  if duration ≤ max_duration then
    { start_time := 0, end_time := duration, duration := duration, score := 1,
      reason := "Full track used (shorter than max duration)" }
  else
    let rms_norm := minmaxNorm rms
    let onset_norm := minmaxNorm onset
    let combined := score_combiner rms onset contrast centroid
    let target := (min_duration + max_duration) / 2
    let wf := window_frames target
    let best := bestWindow (windowCandidates combined beat_times duration target)
    let start0 : ℚ := (best.2 : ℚ) * frame_duration
    let start1 := snapStart beat_times start0
    let se := refineTimes start1 target duration min_duration
    let start_time := se.1
    let end_time := se.2
    let actual := end_time - start_time
    let sf := (⌊start_time / frame_duration⌋).toNat
    let ef := min (sf + wf) rms_norm.length
    let avg_energy := sliceMean rms_norm sf ef
    let avg_onset := sliceMean onset_norm sf ef
    let reason :=
      if 7/10 < avg_energy then "High energy section with strong dynamics"
      else if 3/5 < avg_onset then "Rhythmically active section with good beat presence"
      else "Best overall balance of energy and musical interest"
    { start_time := pyRound start_time 2, end_time := pyRound end_time 2,
      duration := pyRound actual 2, score := pyRound best.1 3, reason := reason }

/-- `adjust_clip` (app.py lines 129-167): `sessionValid` stands for the
`session_id`-present-and-known check, `stored` is the session's current
analysis record, the time fields are `None` when absent from the request.
Returns the HTTP response (`none` = a 400 error) paired with the analysis
record stored after the request — mutation happens only after validation. -/
def adjust_clip (sessionValid : Bool) (stored : ClipResult)
    (start_time end_time : Option ℚ) : Option ClipResult × ClipResult :=
  if sessionValid then
    match start_time, end_time with
    | some s, some e =>
      let d := e - s
      if d < 10 ∨ 60 < d then (none, stored)
      else
        let r : ClipResult := { start_time := s, end_time := e, duration := d,
                                score := stored.score, reason := "Manually adjusted" }
        (some r, r)
    | _, _ => (none, stored)
  else (none, stored)

/-- Claim C2: for every track whose duration is at most `max_duration`,
`analyze_audio` returns start 0, end = duration, duration, score 1 and the
fixed reason string — for every possible feature input, i.e. without the
result depending on feature extraction, scoring, search or refinement. -/
theorem C2_short_track (duration : ℚ) (rms centroid onset contrast beat_times : List ℚ)
    (min_duration max_duration : ℚ) (h : duration ≤ max_duration) :
    analyze_audio duration rms centroid onset contrast beat_times min_duration max_duration =
      { start_time := 0, end_time := duration, duration := duration, score := 1,
        reason := "Full track used (shorter than max duration)" } := by
  simp [analyze_audio, h]

/-- Witness for C2 at a concrete short track. -/
theorem C2_short_track_witness :
    analyze_audio 15 [1, 2] [3] [4] [5] [6] 10 20 =
      { start_time := 0, end_time := 15, duration := 15, score := 1,
        reason := "Full track used (shorter than max duration)" } :=
  C2_short_track 15 [1, 2] [3] [4] [5] [6] 10 20 (by norm_num)

/-- Claim C5: with `end = min(start + target, track_duration)` and
`target = (min_duration + max_duration)/2`, whenever the naive duration
`end − start` is below `min_duration` and `start > 0`, the refiner sets the
corrected start to exactly `max 0 (end − target)`, and the corrected duration
is at least `min_duration` whenever the track is at least `min_duration`
long (given `min_duration ≤ max_duration`, which makes `target ≥ min_duration`). -/
theorem C5_short_window_correction (st duration min_duration max_duration : ℚ)
    (hmm : min_duration ≤ max_duration)
    (htrig : min (st + (min_duration + max_duration) / 2) duration - st < min_duration)
    (hst : 0 < st) :
    (refineTimes st ((min_duration + max_duration) / 2) duration min_duration).1 =
      max 0 (min (st + (min_duration + max_duration) / 2) duration
        - (min_duration + max_duration) / 2) ∧
    (min_duration ≤ duration →
      min_duration ≤
        (refineTimes st ((min_duration + max_duration) / 2) duration min_duration).2 -
          (refineTimes st ((min_duration + max_duration) / 2) duration min_duration).1) := by
  have htm : min_duration ≤ (min_duration + max_duration) / 2 := by linarith
  rw [refineTimes]
  rw [if_pos ⟨htrig, hst⟩]
  refine ⟨rfl, ?_⟩
  intro hd
  have he : min_duration ≤ min (st + (min_duration + max_duration) / 2) duration := by
    rcases min_cases (st + (min_duration + max_duration) / 2) duration with ⟨h1, _⟩ | ⟨h1, _⟩ <;>
      rw [h1] <;> linarith
  rcases max_cases (0 : ℚ)
      (min (st + (min_duration + max_duration) / 2) duration - (min_duration + max_duration) / 2)
    with ⟨h1, h2⟩ | ⟨h1, h2⟩
  · rw [h1, sub_zero]
    exact he
  · rw [h1]
    linarith

/-- Witness for C5: a 100s track, automatic start 95s, defaults 10/20s:
the correction pulls the start back to 85s and yields a 15s clip. -/
theorem C5_short_window_correction_witness :
    (refineTimes 95 15 100 10).1 = 85 ∧
    (10 : ℚ) ≤ (refineTimes 95 15 100 10).2 - (refineTimes 95 15 100 10).1 := by
  have h := C5_short_window_correction 95 100 10 20 (by norm_num) (by norm_num) (by norm_num)
  norm_num at h
  exact h

/-- Claim C6: a manual adjustment with an invalid session or a missing time
field, or with `end − start` outside `[10, 60]`, fails and leaves the stored
record completely unchanged; with `10 ≤ end − start ≤ 60` (both endpoints
succeeding) it replaces start/end/duration, sets the reason to exactly
"Manually adjusted", and preserves the previously stored score unchanged. -/
theorem C6_adjust_clip (sessionValid : Bool) (stored : ClipResult) (s e : ℚ) :
    (∀ ost oet : Option ℚ, (sessionValid = false ∨ ost = none ∨ oet = none) →
      adjust_clip sessionValid stored ost oet = (none, stored)) ∧
    (e - s < 10 ∨ 60 < e - s →
      adjust_clip sessionValid stored (some s) (some e) = (none, stored)) ∧
    (sessionValid = true → 10 ≤ e - s → e - s ≤ 60 →
      adjust_clip sessionValid stored (some s) (some e) =
        (some { start_time := s, end_time := e, duration := e - s,
                score := stored.score, reason := "Manually adjusted" },
          { start_time := s, end_time := e, duration := e - s,
            score := stored.score, reason := "Manually adjusted" })) := by
  refine ⟨?_, ?_, ?_⟩
  · rintro ost oet (h | h | h)
    · simp [adjust_clip, h]
    · subst h
      cases sessionValid <;> simp [adjust_clip]
    · subst h
      cases sessionValid <;> cases ost <;> simp [adjust_clip]
  · intro h
    cases sessionValid with
    | false => simp [adjust_clip]
    | true =>
      rw [adjust_clip]
      simp only [if_true]
      rw [if_pos h]
  · intro hv h1 h2
    subst hv
    rw [adjust_clip]
    simp only [if_true]
    rw [if_neg]
    push_neg
    exact ⟨by linarith, by linarith⟩

/-- Witness for C6: duration exactly 10 and exactly 60 succeed (preserving the
stored score 7/10), duration 9 fails leaving the stored record unchanged. -/
theorem C6_adjust_clip_witness :
    adjust_clip true ⟨1, 2, 1, 7/10, "r"⟩ (some 5) (some 15) =
      (some ⟨5, 15, 10, 7/10, "Manually adjusted"⟩, ⟨5, 15, 10, 7/10, "Manually adjusted"⟩) ∧
    adjust_clip true ⟨1, 2, 1, 7/10, "r"⟩ (some 5) (some 65) =
      (some ⟨5, 65, 60, 7/10, "Manually adjusted"⟩, ⟨5, 65, 60, 7/10, "Manually adjusted"⟩) ∧
    adjust_clip true ⟨1, 2, 1, 7/10, "r"⟩ (some 5) (some 14) = (none, ⟨1, 2, 1, 7/10, "r"⟩) := by
  refine ⟨?_, ?_, ?_⟩
  · have h := (C6_adjust_clip true ⟨1, 2, 1, 7/10, "r"⟩ 5 15).2.2 rfl (by norm_num) (by norm_num)
    norm_num at h ⊢
    exact h
  · have h := (C6_adjust_clip true ⟨1, 2, 1, 7/10, "r"⟩ 5 65).2.2 rfl (by norm_num) (by norm_num)
    norm_num at h ⊢
    exact h
  · exact (C6_adjust_clip true ⟨1, 2, 1, 7/10, "r"⟩ 5 14).2.1 (by norm_num)

theorem window_frames_default : window_frames ((10 + 20) / 2) = 645 := by
  have h : ⌊((10 + 20 : ℚ) / 2) / frame_duration⌋ = 645 := by
    rw [frame_duration, Int.floor_eq_iff] <;> norm_num
  rw [window_frames, h]
  rfl

theorem step_frames_eq : step_frames = 21 := by
  have h : ⌊(1/2 : ℚ) / frame_duration⌋ = 21 := by
    rw [frame_duration, Int.floor_eq_iff] <;> norm_num
  rw [step_frames, h]
  rfl

/-- Counterexample for C8 as stated: at the default 10–20s bounds the target is
15s and `target / frame_duration = 330750/512 ≈ 645.996`, whose `round` is 646
while Python `int()` truncates to 645; likewise `0.5 / frame_duration ≈ 21.53`
rounds to 22 while the code steps by 21 frames. -/
theorem C8_counterexample :
    window_frames ((10 + 20) / 2) = 645 ∧ window_frames_spec ((10 + 20) / 2) = 646 ∧
    step_frames = 21 ∧ step_frames_spec = 22 ∧
    window_frames ((10 + 20) / 2) ≠ window_frames_spec ((10 + 20) / 2) ∧
    step_frames ≠ step_frames_spec := by
  have h1 : window_frames_spec ((10 + 20) / 2) = 646 := by
    have h : round (((10 + 20 : ℚ) / 2) / frame_duration) = 646 := by
      rw [frame_duration, round_eq, Int.floor_eq_iff] <;> norm_num
    rw [window_frames_spec, h]
    rfl
  have h2 : step_frames_spec = 22 := by
    have h : round ((1/2 : ℚ) / frame_duration) = 22 := by
      rw [frame_duration, round_eq, Int.floor_eq_iff] <;> norm_num
    rw [step_frames_spec, h]
    rfl
  refine ⟨window_frames_default, h1, step_frames_eq, h2, ?_, ?_⟩
  · rw [window_frames_default, h1]
    norm_num
  · rw [step_frames_eq, h2]
    norm_num

/-- Claim C8 (amended): the Window Search uses a window of
`int(target / frame_duration)` frames — Python truncation, i.e. the floor for
the positive values arising here, NOT `round` — where the target is the
midpoint `(min_duration + max_duration)/2`, and advances candidate starts in
steps of `int(0.5 / frame_duration)` = 21 frames; at the default 10–20s bounds
the window is 645 frames. -/
theorem C8_truncated_window (min_duration max_duration : ℚ)
    (h : 0 ≤ min_duration + max_duration) :
    ((window_frames ((min_duration + max_duration) / 2) : ℚ) ≤
        ((min_duration + max_duration) / 2) / frame_duration ∧
      ((min_duration + max_duration) / 2) / frame_duration <
        (window_frames ((min_duration + max_duration) / 2) : ℚ) + 1) ∧
    step_frames = 21 ∧ window_frames ((10 + 20) / 2) = 645 := by
  have hfd : (0 : ℚ) < frame_duration := by rw [frame_duration]; norm_num
  have hq : (0 : ℚ) ≤ ((min_duration + max_duration) / 2) / frame_duration := by
    apply div_nonneg _ (le_of_lt hfd)
    linarith
  have hfl : (0 : ℤ) ≤ ⌊((min_duration + max_duration) / 2) / frame_duration⌋ :=
    Int.floor_nonneg.mpr hq
  have hz : (⌊((min_duration + max_duration) / 2) / frame_duration⌋.toNat : ℤ) =
      ⌊((min_duration + max_duration) / 2) / frame_duration⌋ := Int.toNat_of_nonneg hfl
  have hcast : ((window_frames ((min_duration + max_duration) / 2) : ℕ) : ℚ) =
      ((⌊((min_duration + max_duration) / 2) / frame_duration⌋ : ℤ) : ℚ) := by
    rw [window_frames]
    exact_mod_cast hz
  constructor
  · constructor
    · rw [hcast]
      exact Int.floor_le _
    · rw [hcast]
      exact Int.lt_floor_add_one _
  · exact ⟨step_frames_eq, window_frames_default⟩

/-- Witness for C8 (amended) at the default bounds: 645 frames bracket the
exact ratio 330750/512 from below. -/
theorem C8_truncated_window_witness :
    ((645 : ℚ) ≤ (15 : ℚ) / frame_duration ∧ (15 : ℚ) / frame_duration < 646) ∧
    step_frames = 21 ∧ window_frames 15 = 645 := by
  have h := C8_truncated_window 10 20 (by norm_num)
  rw [window_frames_default] at h
  norm_num at h
  have h645 := window_frames_default
  norm_num at h645
  exact ⟨h.1, h.2, h645⟩

/-- Counterexample for C10 as stated: a manual adjustment with
`start = −5, end = 10` has duration 15 ∈ [10, 60], so it is accepted, and the
system then holds a ClipResult with a negative start time — the bounds
`0 ≤ start` and `end ≤ track duration` are never checked on the manual path. -/
theorem C10_counterexample :
    (adjust_clip true ⟨0, 15, 15, 1/2, "r"⟩ (some (-5)) (some 10)).1 =
      some ⟨-5, 10, 15, 1/2, "Manually adjusted"⟩ ∧
    ¬ (0 : ℚ) ≤ (-5 : ℚ) := by
  constructor
  · rw [adjust_clip]
    norm_num
  · norm_num

/-- Claim C10 (amended): a ClipResult installed by an accepted manual
adjustment satisfies `start_time < end_time` (its duration lies in [10, 60]),
but the manual path does not enforce `0 ≤ start_time` or
`end_time ≤ track duration`. -/
theorem C10_manual_partial_invariant (sessionValid : Bool) (stored r : ClipResult)
    (ost oet : Option ℚ)
    (h : (adjust_clip sessionValid stored ost oet).1 = some r) :
    r.start_time < r.end_time ∧ 10 ≤ r.end_time - r.start_time ∧
      r.end_time - r.start_time ≤ 60 := by
  cases sessionValid with
  | false => simp [adjust_clip] at h
  | true =>
    cases ost with
    | none => simp [adjust_clip] at h
    | some s =>
      cases oet with
      | none => simp [adjust_clip] at h
      | some e =>
        rw [adjust_clip] at h
        simp only [if_true] at h
        by_cases hd : e - s < 10 ∨ 60 < e - s
        · rw [if_pos hd] at h
          simp at h
        · rw [if_neg hd] at h
          push_neg at hd
          simp only [Option.some.injEq] at h
          subst h
          refine ⟨by linarith [hd.1], hd.1, hd.2⟩

/-- Witness for C10 (amended) at a concrete accepted adjustment. -/
theorem C10_manual_partial_invariant_witness :
    (⟨-5, 10, 15, 1/2, "Manually adjusted"⟩ : ClipResult).start_time <
      (⟨-5, 10, 15, 1/2, "Manually adjusted"⟩ : ClipResult).end_time :=
  (C10_manual_partial_invariant true ⟨0, 15, 15, 1/2, "r"⟩
    ⟨-5, 10, 15, 1/2, "Manually adjusted"⟩ (some (-5)) (some 10)
    (by rw [adjust_clip]; norm_num)).1

/-- Counterexample for C1 as stated: with energy `[0,1]`, onset `[0,1,2]`,
contrast `[0,1]`, brightness `[0,1]` the code normalizes the full onset
sequence (maximum 2) before truncating, so frame 1 receives onset value
`1/(2+ε)`, while truncate-first-then-normalize would give `1/(1+ε)` — the two
orders produce different combined scores. -/
theorem C1_counterexample :
    score_combiner [0, 1] [0, 1, 2] [0, 1] [0, 1] ≠
      score_combiner_spec [0, 1] [0, 1, 2] [0, 1] [0, 1] := by
  norm_num [score_combiner, score_combiner_spec, combine4, minmaxNorm, normalizeVal,
    listMin, listMax, eps]

/-- Claim C1 (amended): the Score Combiner min-max normalizes each FULL feature
sequence independently first, then truncates the onset/contrast/brightness
sequences to the energy sequence's length (not a four-way shortest truncation
before normalizing), and combines frame-wise as
`0.4*energy_n + 0.3*onset_n + 0.2*contrast_n + 0.1*brightness_n`; when the
other three sequences are at least as long as the energy sequence, the output
has exactly the energy sequence's length. -/
theorem C1_score_combiner_amended (rms onset contrast centroid : List ℚ)
    (ho : rms.length ≤ onset.length) (hc : rms.length ≤ contrast.length)
    (hb : rms.length ≤ centroid.length) :
    (score_combiner rms onset contrast centroid).length = rms.length ∧
    ∀ i, ∀ _ : i < rms.length,
      (score_combiner rms onset contrast centroid).getD i 0 =
        4/10 * normalizeVal rms (rms.getD i 0) +
        3/10 * normalizeVal onset (onset.getD i 0) +
        2/10 * normalizeVal contrast (contrast.getD i 0) +
        1/10 * normalizeVal centroid (centroid.getD i 0) := by
  have hlen : (score_combiner rms onset contrast centroid).length = rms.length := by
    simp only [score_combiner, combine4, minmaxNorm, List.length_zipWith, List.length_map,
      List.length_take]
    omega
  refine ⟨hlen, ?_⟩
  intro i hi
  rw [List.getD_eq_getElem _ _ (by rw [hlen]; exact hi),
    List.getD_eq_getElem _ _ hi, List.getD_eq_getElem _ _ (lt_of_lt_of_le hi ho),
    List.getD_eq_getElem _ _ (lt_of_lt_of_le hi hc), List.getD_eq_getElem _ _ (lt_of_lt_of_le hi hb)]
  simp only [score_combiner, combine4, minmaxNorm, List.getElem_zipWith, List.getElem_map,
    List.getElem_take]
  ring

theorem foldl_min_mem (as : List ℚ) (a : ℚ) : as.foldl min a ∈ a :: as := by
  induction as generalizing a with
  | nil => simp
  | cons x xs ih =>
    rcases List.mem_cons.mp (ih (min a x)) with h1 | h1
    · rcases min_choice a x with hm | hm
      · rw [List.foldl_cons, h1, hm]
        exact List.mem_cons_self _ _
      · rw [List.foldl_cons, h1, hm]
        exact List.mem_cons_of_mem _ (List.mem_cons_self _ _)
    · rw [List.foldl_cons]
      exact List.mem_cons_of_mem _ (List.mem_cons_of_mem _ h1)

theorem listMin_mem (l : List ℚ) (h : l ≠ []) : listMin l ∈ l := by
  cases l with
  | nil => exact absurd rfl h
  | cons a as => exact foldl_min_mem as a

theorem minBeatDist_nonneg (beats : List ℚ) (t : ℚ) (h : beats ≠ []) :
    0 ≤ minBeatDist beats t := by
  have hm : listMin (beats.map (fun b => |b - t|)) ∈ beats.map (fun b => |b - t|) :=
    listMin_mem _ (by simp [h])
  rcases List.mem_map.mp hm with ⟨b, _, hb⟩
  rw [minBeatDist, ← hb]
  exact abs_nonneg _

/-- Claim C3: each candidate window's score is the mean of the combined scores
over its frames, plus — when the beat timeline is nonempty — the bonus
`0.1 * (1 − min(d/0.5, 1))` for `d` the distance from the window's start time
to the nearest beat, and the whole sum is then multiplied by 0.8 exactly when
the start position as a fraction of the track duration is below 0.10 or above
0.85; the bonus lies in `[0, 0.1]`, is exactly 0.1 at `d = 0`, and is exactly
0 for `d ≥ 0.5`. -/
theorem C3_window_score (scores beats : List ℚ) (duration : ℚ) (w start : ℕ) :
    adjScore scores beats duration w start =
      (if ((start : ℚ) * frame_duration) / duration < 1/10 ∨
          85/100 < ((start : ℚ) * frame_duration) / duration then (8/10 : ℚ) else 1) *
        (sliceMean scores start (start + w) +
          if beats ≠ [] then
            1/10 * (1 - min (minBeatDist beats ((start : ℚ) * frame_duration) / (1/2)) 1)
          else 0) ∧
    (beats ≠ [] →
      0 ≤ 1/10 * (1 - min (minBeatDist beats ((start : ℚ) * frame_duration) / (1/2)) 1) ∧
      1/10 * (1 - min (minBeatDist beats ((start : ℚ) * frame_duration) / (1/2)) 1) ≤ 1/10) ∧
    (1/2 ≤ minBeatDist beats ((start : ℚ) * frame_duration) →
      1/10 * (1 - min (minBeatDist beats ((start : ℚ) * frame_duration) / (1/2)) 1) = 0) ∧
    (minBeatDist beats ((start : ℚ) * frame_duration) = 0 →
      1/10 * (1 - min (minBeatDist beats ((start : ℚ) * frame_duration) / (1/2)) 1) = 1/10) := by
  refine ⟨?_, ?_, ?_, ?_⟩
  · simp only [adjScore]
    split_ifs <;> ring
  · intro h
    have hd := minBeatDist_nonneg beats ((start : ℚ) * frame_duration) h
    have h1 : min (minBeatDist beats ((start : ℚ) * frame_duration) / (1/2)) 1 ≤ 1 :=
      min_le_right _ _
    have h0 : 0 ≤ min (minBeatDist beats ((start : ℚ) * frame_duration) / (1/2)) 1 :=
      le_min (by positivity) (by norm_num)
    constructor <;> linarith
  · intro h
    have h1 : (1 : ℚ) ≤ minBeatDist beats ((start : ℚ) * frame_duration) / (1/2) := by
      rw [le_div_iff (by norm_num : (0:ℚ) < 1/2)]
      linarith
    rw [min_eq_right h1]
    ring
  · intro h
    rw [h]
    norm_num

/-- Witness for C3: two equal scores, one beat exactly at the window start
(bonus 0.1), start at 0% of a 100s track (edge penalty applies):
`0.8 * (mean + 0.1)`. -/
theorem C3_window_score_witness :
    adjScore [1, 1] [0] 100 1 0 = (8/10 : ℚ) * (sliceMean [1, 1] 0 1 + 1/10) := by
  have h1 := (C3_window_score [1, 1] [0] 100 1 0).1
  norm_num [minBeatDist, listMin] at h1
  rw [h1]
  norm_num

/-- Invariant of the `np.argmin` scan relative to the full list `ds`: starting
from a best value found at `bi < i` that is minimal among, and strictly smaller
than every earlier entry of, the first `i` entries, the scan of `ds.drop i`
returns the index of the first minimum of `ds`. -/
theorem argminAux_go (rem : List ℚ) :
    ∀ (ds : List ℚ) (i bi : ℕ) (bv : ℚ), ds.drop i = rem → i ≤ ds.length → bi < i →
      ds.getD bi 0 = bv → (∀ k, k < i → bv ≤ ds.getD k 0) → (∀ k, k < bi → bv < ds.getD k 0) →
      argminAux rem i bv bi < ds.length ∧
      (∀ k, k < ds.length → ds.getD (argminAux rem i bv bi) 0 ≤ ds.getD k 0) ∧
      (∀ k, k < argminAux rem i bv bi → ds.getD k 0 > ds.getD (argminAux rem i bv bi) 0) := by
  induction rem with
  | nil =>
    intro ds i bi bv hdrop hle hbi hget hmin hfirst
    have hi : i = ds.length := by
      have := List.drop_eq_nil_iff.mp hdrop
      omega
    simp only [argminAux]
    refine ⟨by omega, ?_, ?_⟩
    · intro k hk
      rw [hget]
      exact hmin k (by omega)
    · intro k hk
      rw [hget]
      exact hfirst k hk
  | cons x rest ih =>
    intro ds i bi bv hdrop hle hbi hget hmin hfirst
    have hilt : i < ds.length := by
      by_contra hcon
      have hnil : ds.drop i = [] := List.drop_eq_nil_iff.mpr (by omega)
      rw [hnil] at hdrop
      exact List.cons_ne_nil x rest hdrop.symm
    have hcons := List.drop_eq_getElem_cons hilt
    rw [hdrop] at hcons
    obtain ⟨hx0, hrest0⟩ := List.cons_eq_cons.mp hcons
    have hx : ds.getD i 0 = x := by
      rw [List.getD_eq_getElem _ _ hilt]
      exact hx0.symm
    have hrest : ds.drop (i + 1) = rest := hrest0.symm
    simp only [argminAux]
    by_cases hcmp : x < bv
    · rw [if_pos hcmp]
      apply ih ds (i + 1) i x hrest (by omega) (by omega) hx
      · intro k hk
        rcases Nat.lt_succ_iff_lt_or_eq.mp hk with hk' | hk'
        · exact le_trans (le_of_lt hcmp) (hmin k hk')
        · subst hk'
          rw [hx]
      · intro k hk
        exact lt_of_lt_of_le hcmp (hmin k hk)
    · rw [if_neg hcmp]
      apply ih ds (i + 1) bi bv hrest (by omega) (by omega) hget
      · intro k hk
        rcases Nat.lt_succ_iff_lt_or_eq.mp hk with hk' | hk'
        · exact hmin k hk'
        · subst hk'
          rw [hx]
          exact not_lt.mp hcmp
      · exact hfirst

/-- `np.argmin` on a nonempty list: the returned index is in range, carries a
minimal value, and every earlier index carries a strictly larger value (first
occurrence wins). -/
theorem argminL_spec (l : List ℚ) (h : l ≠ []) :
    argminL l < l.length ∧ (∀ k, k < l.length → l.getD (argminL l) 0 ≤ l.getD k 0) ∧
    (∀ k, k < argminL l → l.getD k 0 > l.getD (argminL l) 0) := by
  cases l with
  | nil => exact absurd rfl h
  | cons a as =>
    have hgo := argminAux_go as (a :: as) 1 0 a (by simp) (by simp) (by omega) (by rfl)
      (by
        intro k hk
        interval_cases k
        exact le_refl a)
      (by omega)
    simpa only [argminL] using hgo

/-- Claim C4: with a nonempty beat timeline, a chosen start lying strictly
within 0.3s of some beat is replaced by exactly the timestamp of the nearest
beat — nearest by absolute distance, ties resolved by the first index the
minimum-scan finds (every earlier beat is strictly farther) — while a start at
least 0.31s away from every beat is left unmodified. -/
theorem C4_beat_snap (beats : List ℚ) (st : ℚ) (hne : beats ≠ []) :
    ((∃ b ∈ beats, |b - st| < 3/10) →
      ∃ i, i < beats.length ∧ snapStart beats st = beats.getD i 0 ∧
        (∀ b ∈ beats, |beats.getD i 0 - st| ≤ |b - st|) ∧
        (∀ k, k < i → |beats.getD i 0 - st| < |beats.getD k 0 - st|)) ∧
    ((∀ b ∈ beats, 31/100 ≤ |b - st|) → snapStart beats st = st) := by
  set ds := beats.map (fun b => |b - st|) with hds
  have hdsne : ds ≠ [] := by
    rw [hds]
    simpa using hne
  have hdl : ds.length = beats.length := by
    rw [hds, List.length_map]
  obtain ⟨hlt, hmin, hfirst⟩ := argminL_spec ds hdsne
  have hdk : ∀ k, k < beats.length → ds.getD k 0 = |beats.getD k 0 - st| := by
    intro k hk
    rw [hds, List.getD_eq_getElem _ _ (by rw [List.length_map]; exact hk),
      List.getElem_map, List.getD_eq_getElem _ _ hk]
  constructor
  · rintro ⟨b, hb, hblt⟩
    obtain ⟨j, hj, hbj⟩ := List.mem_iff_getElem.mp hb
    have hmj : ds.getD (argminL ds) 0 ≤ |b - st| := by
      have := hmin j (by omega)
      rw [hdk j hj, List.getD_eq_getElem _ _ hj, hbj] at this
      exact this
    have hsnap : snapStart beats st = beats.getD (argminL ds) 0 := by
      rw [snapStart, if_neg hne]
      simp only [← hds]
      rw [if_pos (lt_of_le_of_lt hmj hblt)]
    refine ⟨argminL ds, by omega, hsnap, ?_, ?_⟩
    · intro b' hb'
      obtain ⟨j', hj', hbj'⟩ := List.mem_iff_getElem.mp hb'
      have h1 := hmin j' (by omega)
      rw [hdk j' hj', List.getD_eq_getElem _ _ hj', hbj'] at h1
      rw [← hdk (argminL ds) (by omega)]
      exact h1
    · intro k hk
      have h1 := hfirst k hk
      rw [hdk k (by omega), hdk (argminL ds) (by omega)] at h1
      exact h1
  · intro hall
    have hge : 31/100 ≤ ds.getD (argminL ds) 0 := by
      rw [hdk (argminL ds) (by omega)]
      apply hall
      rw [List.getD_eq_getElem _ _ (by omega)]
      exact List.getElem_mem _
    rw [snapStart, if_neg hne]
    simp only [← hds]
    rw [if_neg (by linarith)]

/-- Witness for C4: a start 0.1s after beat 1 snaps onto a beat timestamp of
`[1, 2]`; a start 1.5s resp. 0.5s away from the two beats is left at 5/2. -/
theorem C4_beat_snap_witness :
    snapStart [(1 : ℚ), 2] (5/2) = 5/2 ∧
    ∃ i, i < 2 ∧ snapStart [(1 : ℚ), 2] (11/10) = [(1 : ℚ), 2].getD i 0 := by
  constructor
  · refine (C4_beat_snap [(1 : ℚ), 2] (5/2) (by simp)).2 ?_
    intro b hb
    rcases List.mem_cons.mp hb with h | h
    · rw [h, abs_of_neg (by norm_num : (1 : ℚ) - 5/2 < 0)]
      norm_num
    · rcases List.mem_cons.mp h with h' | h'
      · rw [h', abs_of_neg (by norm_num : (2 : ℚ) - 5/2 < 0)]
        norm_num
      · cases h'
  · obtain ⟨i, hi, heq, -, -⟩ :=
      (C4_beat_snap [(1 : ℚ), 2] (11/10) (by simp)).1
        ⟨1, by simp, by rw [abs_lt]; constructor <;> norm_num⟩
    exact ⟨i, by simpa using hi, heq⟩

/-- Once the running best ties-or-beats everything left, the search fold never
changes it (the update uses strictly-greater). -/
theorem bestWindow_fold_const (l : List (ℕ × ℚ)) (b : ℚ × ℕ)
    (h : ∀ p ∈ l, p.2 ≤ b.1) :
    List.foldl (fun best p => if best.1 < p.2 then (p.2, p.1) else best) b l = b := by
  induction l with
  | nil => rfl
  | cons x xs ih =>
    rw [List.foldl_cons, if_neg (not_lt.mpr (h x (List.mem_cons_self x xs)))]
    exact ih (fun p hp => h p (List.mem_cons_of_mem x hp))

/-- While every candidate scores strictly below `s`, the running best stays
strictly below `s`. -/
theorem bestWindow_fold_lt (l : List (ℕ × ℚ)) :
    ∀ (s : ℚ), (∀ p ∈ l, p.2 < s) → ∀ b : ℚ × ℕ, b.1 < s →
      (List.foldl (fun best p => if best.1 < p.2 then (p.2, p.1) else best) b l).1 < s := by
  induction l with
  | nil =>
    intro s _ b hb
    simpa using hb
  | cons x xs ih =>
    intro s h b hb
    rw [List.foldl_cons]
    by_cases hc : b.1 < x.2
    · rw [if_pos hc]
      exact ih s (fun p hp => h p (List.mem_cons_of_mem x hp)) (x.2, x.1)
        (h x (List.mem_cons_self x xs))
    · rw [if_neg hc]
      exact ih s (fun p hp => h p (List.mem_cons_of_mem x hp)) b hb

/-- Claim C9: when the candidate list splits as `l₁ ++ (i, s) :: l₂` with every
earlier candidate strictly below `s` and every later candidate at most `s`
(so `(i, s)` is the first maximum; candidates are generated in ascending start
order), the search returns start frame `i` with score `s` — the running best is
updated only on strictly greater scores, so the earliest maximum is kept. -/
theorem C9_tie_break (scores beats : List ℚ) (duration target : ℚ)
    (l₁ l₂ : List (ℕ × ℚ)) (i : ℕ) (s : ℚ)
    (hsplit : windowCandidates scores beats duration target = l₁ ++ (i, s) :: l₂)
    (h1 : ∀ p ∈ l₁, p.2 < s) (h2 : ∀ p ∈ l₂, p.2 ≤ s) (hs : -1 < s) :
    bestWindow (windowCandidates scores beats duration target) = (s, i) := by
  rw [hsplit, bestWindow, List.foldl_append, List.foldl_cons]
  have hlt : (List.foldl (fun best p => if best.1 < p.2 then (p.2, p.1) else best)
      ((-1 : ℚ), (0 : ℕ)) l₁).1 < s := bestWindow_fold_lt l₁ s h1 (-1, 0) (by simpa using hs)
  rw [if_pos hlt]
  exact bestWindow_fold_const l₂ (s, i) (by simpa using h2)

theorem window_frames_fd : window_frames frame_duration = 1 := by
  rw [window_frames, div_self (by rw [frame_duration]; norm_num)]
  norm_num

/-- Witness for C9: 23 equal combined scores with no beats give exactly two
candidate windows (frames 0 and 21 — one window frame, 21-frame step), both
adjusted to the same score `2/5`; the search keeps the earlier frame 0. -/
theorem C9_tie_break_witness :
    bestWindow (windowCandidates (List.replicate 23 (1/2 : ℚ)) [] 1000 frame_duration) =
      (2/5, 0) := by
  have hcand : windowCandidates (List.replicate 23 (1/2 : ℚ)) [] 1000 frame_duration =
      [(0, 2/5), (21, 2/5)] := by
    have hr : pyRange 22 21 = [0, 21] := by decide
    rw [windowCandidates, window_frames_fd, step_frames_eq]
    norm_num [List.length_replicate]
    rw [hr]
    norm_num [adjScore, sliceMean, minBeatDist, frame_duration, List.take_replicate,
      List.drop_replicate, List.sum_replicate, min_def]
  exact C9_tie_break _ _ _ _ [] [(21, 2/5)] 0 (2/5) hcand (by simp) (by simp) (by norm_num)

/-- Witness for C1 (amended) at energy `[0,1]`, onset `[0,1,2]`, contrast and
brightness `[0,1]`: output length 2, and frame 1 combines the full-sequence
normalized values with weights 0.4/0.3/0.2/0.1. -/
theorem C1_score_combiner_amended_witness :
    (score_combiner [0, 1] [0, 1, 2] [0, 1] [0, 1]).length = 2 ∧
    (score_combiner [0, 1] [0, 1, 2] [0, 1] [0, 1]).getD 1 0 =
      4/10 * normalizeVal [0, 1] 1 + 3/10 * normalizeVal [(0 : ℚ), 1, 2] 1 +
      2/10 * normalizeVal [0, 1] 1 + 1/10 * normalizeVal [0, 1] 1 := by
  have h := C1_score_combiner_amended [0, 1] [0, 1, 2] [0, 1] [0, 1]
    (by norm_num) (by norm_num) (by norm_num)
  refine ⟨by simpa using h.1, ?_⟩
  have h2 := h.2 1 (by norm_num)
  simpa using h2
